import Mathlib

/-!
Verification of the gap-filling and symbol-resolution core of
`exchange_rates.py`.

Shallow embedding conventions:
* Calendar dates are modelled as `ℤ` (days since an arbitrary epoch); the
  source works with timezone-naive calendar days (`pd.to_datetime(...).dt.
  tz_localize(None)` followed by `.dt.date`), so a date is just a point on
  the day axis and date subtraction counts calendar days.
* Rates are modelled as `ℚ` (the numeric values carried by the DataFrame
  column; numerics are modelled exactly).
* A missing rate (pandas `NaN`) is `Option.none`.
* A raw observation frame is a `List (ℤ × ℚ)` of (date, rate) rows in frame
  order.
-/

namespace ExchangeRates

/-- The model of `pd.date_range(start=s, end=e, freq=D)`: every calendar day from `s`
to `e` inclusive, in increasing order; empty when `e < s`. -/
def dateRange (s e : ℤ) : List ℤ :=
  (List.range (e - s + 1).toNat).map (fun (k : ℕ) => s + (k : ℤ))

/-- The rows a left merge emits for one left-side date `d`: one row per
matching raw row (in frame order), or a single `NaN` (`none`) row when no
raw row has that date. -/
def mergeBlock (raw : List (ℤ × ℚ)) (d : ℤ) : List (ℤ × Option ℚ) :=
  let ms := raw.filter (fun q => q.1 = d)
  if ms.isEmpty then [(d, none)] else ms.map (fun q => (q.1, some q.2))

/-- The model of the left merge `pd.merge(complete_df, df, on=Date, how=left)`: one output row per
left row and matching right row, keeping left (date) order and, within one
date, right (frame) order; a date with no match gets a `NaN` (`none`) rate.
-/
def mergeLeft : List ℤ → List (ℤ × ℚ) → List (ℤ × Option ℚ)
  | [], _ => []
  | d :: ds, raw => mergeBlock raw d ++ mergeLeft ds raw

/-- Position (and value) of the last valid (non-`NaN`) entry strictly
before index `i`, scanning downward. -/
def prevValid (v : List (Option ℚ)) : ℕ → Option (ℕ × ℚ)
  | 0 => none
  | i + 1 =>
    match v.get? i with
    | some (some x) => some (i, x)
    | _ => prevValid v i

/-- Helper for `nextValid`: first valid entry of `l`, whose head sits at
absolute index `k`. -/
def nextValidAux : List (Option ℚ) → ℕ → Option (ℕ × ℚ)
  | [], _ => none
  | some x :: _, k => some (k, x)
  | none :: rest, k => nextValidAux rest (k + 1)

/-- Position (and value) of the first valid (non-`NaN`) entry strictly
after index `i`. -/
def nextValid (v : List (Option ℚ)) (i : ℕ) : Option (ℕ × ℚ) :=
  nextValidAux (v.drop (i + 1)) (i + 1)

/-- One entry of the pandas linear interpolation (`Series.interpolate`, method linear) on a default
`RangeIndex` (the method treats values as equally spaced, which over the
merged frame is one position per calendar day) with the default
limit direction `forward`:
* a valid entry is kept;
* a `NaN` bracketed by valid entries at positions `p < i < n` becomes
  `vp + (vn - vp) * (i - p) / (n - p)`;
* a trailing `NaN` (valid entry before, none after) is forward-filled with
  the last valid value;
* a leading `NaN` (no valid entry before) stays `NaN`. -/
def interpAt (v : List (Option ℚ)) (i : ℕ) : Option ℚ :=
  match v.get? i with
  | some (some x) => some x
  | _ =>
    match prevValid v i, nextValid v i with
    | some (p, vp), some (n, vn) =>
        some (vp + (vn - vp) * ((i : ℚ) - (p : ℚ)) / ((n : ℚ) - (p : ℚ)))
    | some (_, vp), none => some vp
    | none, _ => none

/-- The pandas linear interpolation applied to the whole rate column. -/
def interpolate (v : List (Option ℚ)) : List (Option ℚ) :=
  (List.range v.length).map (interpAt v)

/-- The function `fill_missing_dates(df, start_date, end_date)` (exchange_rates.py,
lines 31-58): build the complete daily range, left-merge the raw frame
onto it, and replace the rate column by its linear interpolation.  The
diagnostic printing of filled dates (lines 51-56) is an observable side
effect only and is not part of the returned value. -/
def fill_missing_dates (raw : List (ℤ × ℚ)) (s e : ℤ) : List (ℤ × Option ℚ) :=
  let merged := mergeLeft (dateRange s e) raw
  List.zipWith (fun p r => (p.1, r)) merged (interpolate (merged.map Prod.snd))

/-- Derived form of the left-merged rate column when raw dates are unique
(the data-model guarantee): the rate found for date `d` by scanning the raw
frame, if any.  Used to state lemmas about `mergeLeft`. -/
def lookupRate (raw : List (ℤ × ℚ)) (d : ℤ) : Option ℚ :=
  (raw.find? (fun q => q.1 = d)).map Prod.snd

/-- The rate column of the merged frame in lookup form: one cell per day of
the bound, holding the raw rate for that day when unique raw dates provide
one.  Used to state lemmas about `fill_missing_dates`. -/
def ratesVec (raw : List (ℤ × ℚ)) (s e : ℤ) : List (Option ℚ) :=
  (dateRange s e).map (fun d => lookupRate raw d)

/-- The Python upper() method on a currency code: character-wise uppercase. -/
def upper (t : String) : String := ⟨t.data.map Char.toUpper⟩

/-- Line 73: `"BTC-{base}" if quote_currency.upper() == "BTC" else
"{base}{quote}=X"`. -/
def resolveSymbol (base quote : String) : String :=
  if upper quote = "BTC" then "BTC-" ++ base else base ++ quote ++ "=X"

/-- The tabular frame returned by `yf.Ticker(symbol).history(...)`: a list
of column labels and one row of numeric cells per date. -/
structure PriceFrame where
  cols : List String
  rows : List (ℤ × List ℚ)

/-- The Close-column selection and index reset followed by the column renaming (lines
77-78): select the `Close` column of each row; raises (`Except.error`)
when the frame has no `Close` column or a row lacks that cell. -/
def selectClose (f : PriceFrame) : Except String (List (ℤ × ℚ)) :=
  match f.cols.findIdx? (fun c => c = "Close") with
  | none => Except.error "KeyError: Close"
  | some j =>
      f.rows.mapM (fun row =>
        match row.2.get? j with
        | none => Except.error "IndexError"
        | some x => Except.ok (row.1, x))

/-- The function `get_exchange_rate` (lines 60-82).  The network fetch is the external
collaborator, passed as an oracle from symbol to either a frame or a
raised error.  The whole try-block (fetch, column selection and
`fill_missing_dates`) is guarded by `except Exception: return None`, so
every raised error becomes `none`. -/
def get_exchange_rate (fetch : String → Except String PriceFrame)
    (base quote : String) (s e : ℤ) : Option (List (ℤ × Option ℚ)) :=
  match fetch (resolveSymbol base quote) with
  | Except.error _ => none
  | Except.ok f =>
      match selectClose f with
      | Except.error _ => none
      | Except.ok raw => some (fill_missing_dates raw s e)

/-! ### Basic lemmas about `dateRange` -/

theorem dateRange_length (s e : ℤ) : (dateRange s e).length = (e - s + 1).toNat := by
  rw [dateRange, List.length_map, List.length_range]

theorem dateRange_get? {s e : ℤ} {k : ℕ} (hk : k < (e - s + 1).toNat) :
    (dateRange s e).get? k = some (s + (k : ℤ)) := by
  rw [dateRange, List.get?_map, List.get?_range hk]
  rfl

theorem mem_dateRange {s e d : ℤ} : d ∈ dateRange s e ↔ s ≤ d ∧ d ≤ e := by
  constructor
  · intro hmem
    rw [dateRange, List.mem_map] at hmem
    obtain ⟨k, hk, rfl⟩ := hmem
    rw [List.mem_range] at hk
    omega
  · rintro ⟨h1, h2⟩
    rw [dateRange, List.mem_map]
    exact ⟨(d - s).toNat, List.mem_range.mpr (by omega), by omega⟩

theorem dateRange_pairwise (s e : ℤ) : (dateRange s e).Pairwise (· < ·) := by
  rw [dateRange, List.pairwise_map]
  exact List.Pairwise.imp (fun {a b} (h : a < b) => by omega) (List.pairwise_lt_range _)

theorem dateRange_nodup (s e : ℤ) : (dateRange s e).Nodup :=
  (dateRange_pairwise s e).imp ne_of_lt

/-! ### The merged frame under unique raw dates -/

theorem find?_eq_head?_filter {α : Type} (p : α → Bool) (l : List α) :
    l.find? p = (l.filter p).head? := by
  induction l with
  | nil => rfl
  | cons a t ih =>
    by_cases h : p a
    · rw [List.find?_cons_of_pos _ h, List.filter_cons_of_pos h, List.head?_cons]
    · rw [List.find?_cons_of_neg _ h, List.filter_cons_of_neg h, ih]

theorem filter_fst_length_le {raw : List (ℤ × ℚ)} (hnd : (raw.map Prod.fst).Nodup) (d : ℤ) :
    (raw.filter (fun q => q.1 = d)).length ≤ 1 := by
  induction raw with
  | nil => simp
  | cons a t ih =>
    rw [List.map_cons, List.nodup_cons] at hnd
    by_cases hd : a.1 = d
    · rw [List.filter_cons_of_pos (by simpa using hd)]
      have ht : t.filter (fun q => q.1 = d) = [] := by
        rw [List.filter_eq_nil_iff]
        intro q hq hq'
        exact hnd.1 (List.mem_map.mpr ⟨q, hq, by simp at hq'; omega⟩)
      simp [ht]
    · rw [List.filter_cons_of_neg (by simpa using hd)]
      exact ih hnd.2

theorem mergeBlock_eq {raw : List (ℤ × ℚ)} (hnd : (raw.map Prod.fst).Nodup) (d : ℤ) :
    mergeBlock raw d = [(d, lookupRate raw d)] := by
  cases h : raw.filter (fun q => q.1 = d) with
  | nil =>
    simp only [mergeBlock, h, List.isEmpty_nil, if_pos rfl]
    rw [lookupRate, find?_eq_head?_filter, h]
    rfl
  | cons q t =>
    have hlen := filter_fst_length_le hnd d
    rw [h] at hlen
    have ht : t = [] := by
      cases t with
      | nil => rfl
      | cons _ _ => simp at hlen
    subst ht
    have hq1 : q.1 = d := by
      have hqmem : q ∈ raw.filter (fun q => q.1 = d) := by
        rw [h]; exact List.mem_singleton_self q
      simpa using List.of_mem_filter hqmem
    have hne : ¬((q :: ([] : List (ℤ × ℚ))).isEmpty = true) := by simp
    simp only [mergeBlock, h]
    rw [if_neg hne, List.map_cons, List.map_nil, lookupRate, find?_eq_head?_filter, h, hq1]
    rfl

theorem mergeLeft_eq_map {raw : List (ℤ × ℚ)} (hnd : (raw.map Prod.fst).Nodup)
    (ds : List ℤ) : mergeLeft ds raw = ds.map (fun d => (d, lookupRate raw d)) := by
  induction ds with
  | nil => rfl
  | cons d t ih =>
    rw [mergeLeft, List.map_cons, mergeBlock_eq hnd d, ih]
    rfl

theorem lookupRate_eq_some {raw : List (ℤ × ℚ)} (hnd : (raw.map Prod.fst).Nodup)
    {d : ℤ} {r : ℚ} (hmem : (d, r) ∈ raw) : lookupRate raw d = some r := by
  have hsome : (raw.find? (fun q => q.1 = d)).isSome := by
    rw [List.find?_isSome]
    exact ⟨(d, r), hmem, by simp⟩
  obtain ⟨q, hq⟩ := Option.isSome_iff_exists.mp hsome
  have hq1 : q.1 = d := by simpa using List.find?_some hq
  have hqmem : q ∈ raw := List.mem_of_find?_eq_some hq
  have : q = (d, r) := List.inj_on_of_nodup_map hnd hqmem hmem (by simpa using hq1)
  rw [lookupRate, hq, this]
  rfl

theorem lookupRate_eq_none {raw : List (ℤ × ℚ)} {d : ℤ}
    (h : ∀ q ∈ raw, q.1 ≠ d) : lookupRate raw d = none := by
  rw [lookupRate, List.find?_eq_none.mpr (by intro q hq; simpa using h q hq)]
  rfl

/-! ### Interpolation: specification lemmas -/

theorem interpolate_length (v : List (Option ℚ)) : (interpolate v).length = v.length := by
  rw [interpolate, List.length_map, List.length_range]

theorem interpolate_get? {v : List (Option ℚ)} {i : ℕ} (hi : i < v.length) :
    (interpolate v).get? i = some (interpAt v i) := by
  rw [interpolate, List.get?_map, List.get?_range hi]
  rfl

theorem interpAt_valid {v : List (Option ℚ)} {i : ℕ} {x : ℚ}
    (h : v.get? i = some (some x)) : interpAt v i = some x := by
  rw [interpAt, h]

theorem prevValid_eq_none {v : List (Option ℚ)} {i : ℕ}
    (h : ∀ k, k < i → ∀ x : ℚ, v.get? k ≠ some (some x)) : prevValid v i = none := by
  induction i with
  | zero => rfl
  | succ j ih =>
    cases hv : v.get? j with
    | none =>
      simp only [prevValid, hv]
      exact ih (fun k hk => h k (by omega))
    | some o =>
      cases o with
      | none =>
        simp only [prevValid, hv]
        exact ih (fun k hk => h k (by omega))
      | some x => exact absurd hv (h j (by omega) x)

theorem prevValid_eq_some {v : List (Option ℚ)} {j i : ℕ} {x : ℚ} (hji : j < i)
    (hj : v.get? j = some (some x))
    (hbetween : ∀ k, j < k → k < i → ∀ y : ℚ, v.get? k ≠ some (some y)) :
    prevValid v i = some (j, x) := by
  induction i with
  | zero => omega
  | succ m ih =>
    by_cases hjm : j = m
    · subst hjm
      simp only [prevValid, hj]
    · have hj' : j < m := by omega
      cases hv : v.get? m with
      | none =>
        simp only [prevValid, hv]
        exact ih hj' (fun k h1 h2 => hbetween k h1 (by omega))
      | some o =>
        cases o with
        | none =>
          simp only [prevValid, hv]
          exact ih hj' (fun k h1 h2 => hbetween k h1 (by omega))
        | some y => exact absurd hv (hbetween m (by omega) (by omega) y)

theorem nextValidAux_eq_none {l : List (Option ℚ)} (h : ∀ o ∈ l, o = none) :
    ∀ a : ℕ, nextValidAux l a = none := by
  induction l with
  | nil => intro a; rfl
  | cons o rest ih =>
    intro a
    obtain rfl : o = none := h o (by simp)
    simp only [nextValidAux]
    exact ih (fun o' ho' => h o' (by simp [ho'])) (a + 1)

theorem nextValidAux_eq_some {l : List (Option ℚ)} :
    ∀ (m a : ℕ) (x : ℚ), l.get? m = some (some x) →
      (∀ k, k < m → ∀ y : ℚ, l.get? k ≠ some (some y)) →
      nextValidAux l a = some (a + m, x) := by
  induction l with
  | nil => intro m a x h _; simp at h
  | cons o rest ih =>
    intro m a x h hlt
    cases m with
    | zero =>
      rw [List.get?_cons_zero] at h
      obtain rfl : o = some x := by injection h
      simp [nextValidAux]
    | succ m' =>
      obtain rfl : o = none := by
        cases o with
        | none => rfl
        | some y => exact absurd (by rw [List.get?_cons_zero]) (hlt 0 (by omega) y)
      simp only [nextValidAux]
      have hrec := ih m' (a + 1) x (by simpa using h)
        (fun k hk y hky => hlt (k + 1) (by omega) y (by simpa using hky))
      have harith : a + 1 + m' = a + (m' + 1) := by omega
      rw [hrec, harith]

theorem nextValid_eq_none {v : List (Option ℚ)} {i : ℕ}
    (h : ∀ k, i < k → ∀ x : ℚ, v.get? k ≠ some (some x)) : nextValid v i = none := by
  rw [nextValid]
  apply nextValidAux_eq_none
  intro o ho
  obtain ⟨j, hj⟩ := List.mem_iff_get?.mp ho
  rw [List.get?_drop] at hj
  cases o with
  | none => rfl
  | some x => exact absurd hj (h (i + 1 + j) (by omega) x)

theorem nextValid_eq_some {v : List (Option ℚ)} {i n : ℕ} {x : ℚ} (hin : i < n)
    (hn : v.get? n = some (some x))
    (hbetween : ∀ k, i < k → k < n → ∀ y : ℚ, v.get? k ≠ some (some y)) :
    nextValid v i = some (n, x) := by
  rw [nextValid]
  have h1 : (v.drop (i + 1)).get? (n - (i + 1)) = some (some x) := by
    rw [List.get?_drop]
    have : i + 1 + (n - (i + 1)) = n := by omega
    rw [this]
    exact hn
  have h2 : ∀ k, k < n - (i + 1) → ∀ y : ℚ, (v.drop (i + 1)).get? k ≠ some (some y) := by
    intro k hk y
    rw [List.get?_drop]
    exact hbetween (i + 1 + k) (by omega) (by omega) y
  have hrec := nextValidAux_eq_some (n - (i + 1)) (i + 1) x h1 h2
  have harith : i + 1 + (n - (i + 1)) = n := by omega
  rw [hrec, harith]

/-! ### Structure of `fill_missing_dates` -/

theorem zipWith_get?_of_get? {α β γ : Type} {f : α → β → γ} :
    ∀ {a : List α} {b : List β} {k : ℕ} {x : α} {y : β},
      a.get? k = some x → b.get? k = some y →
      (List.zipWith f a b).get? k = some (f x y) := by
  intro a
  induction a with
  | nil => intro b k x y h _; simp at h
  | cons a0 tl ih =>
    intro b k x y ha hb
    cases b with
    | nil => simp at hb
    | cons b0 bt =>
      cases k with
      | zero =>
        rw [List.get?_cons_zero] at ha hb
        injection ha with ha
        injection hb with hb
        rw [List.zipWith_cons_cons, List.get?_cons_zero, ha, hb]
      | succ k' =>
        rw [List.get?_cons_succ] at ha hb
        rw [List.zipWith_cons_cons, List.get?_cons_succ]
        exact ih ha hb

theorem zipWith_get?_inv {α β γ : Type} {f : α → β → γ} :
    ∀ {a : List α} {b : List β} {k : ℕ} {c : γ},
      (List.zipWith f a b).get? k = some c →
      ∃ x y, a.get? k = some x ∧ b.get? k = some y ∧ c = f x y := by
  intro a
  induction a with
  | nil => intro b k c h; simp at h
  | cons a0 tl ih =>
    intro b k c h
    cases b with
    | nil => simp at h
    | cons b0 bt =>
      cases k with
      | zero =>
        rw [List.zipWith_cons_cons, List.get?_cons_zero] at h
        injection h with h
        exact ⟨a0, b0, List.get?_cons_zero, List.get?_cons_zero, h.symm⟩
      | succ k' =>
        rw [List.zipWith_cons_cons, List.get?_cons_succ] at h
        obtain ⟨x, y, hx, hy, hc⟩ := ih h
        exact ⟨x, y, by rw [List.get?_cons_succ]; exact hx,
          by rw [List.get?_cons_succ]; exact hy, hc⟩

theorem fill_eq_zip (raw : List (ℤ × ℚ)) (s e : ℤ) :
    fill_missing_dates raw s e
      = List.zipWith (fun p r => (p.1, r)) (mergeLeft (dateRange s e) raw)
          (interpolate ((mergeLeft (dateRange s e) raw).map Prod.snd)) := rfl

theorem fill_length_eq_merged (raw : List (ℤ × ℚ)) (s e : ℤ) :
    (fill_missing_dates raw s e).length = (mergeLeft (dateRange s e) raw).length := by
  rw [fill_eq_zip, List.length_zipWith, interpolate_length, List.length_map, min_self]

theorem fill_get?_of_merged {raw : List (ℤ × ℚ)} {s e : ℤ} {k : ℕ} {p : ℤ × Option ℚ}
    (h : (mergeLeft (dateRange s e) raw).get? k = some p) :
    (fill_missing_dates raw s e).get? k
      = some (p.1, interpAt ((mergeLeft (dateRange s e) raw).map Prod.snd) k) := by
  rw [fill_eq_zip]
  refine zipWith_get?_of_get? h (interpolate_get? ?_)
  rw [List.length_map]
  exact (List.get?_eq_some.mp h).1

theorem merged_map_snd {raw : List (ℤ × ℚ)} (hnd : (raw.map Prod.fst).Nodup) (s e : ℤ) :
    (mergeLeft (dateRange s e) raw).map Prod.snd = ratesVec raw s e := by
  rw [mergeLeft_eq_map hnd, List.map_map, ratesVec]
  rfl

theorem ratesVec_get? {raw : List (ℤ × ℚ)} {s e : ℤ} {k : ℕ} (hk : k < (e - s + 1).toNat) :
    (ratesVec raw s e).get? k = some (lookupRate raw (s + (k : ℤ))) := by
  rw [ratesVec, List.get?_map, dateRange_get? hk]
  rfl

theorem ratesVec_length (raw : List (ℤ × ℚ)) (s e : ℤ) :
    (ratesVec raw s e).length = (e - s + 1).toNat := by
  rw [ratesVec, List.length_map, dateRange_length]

theorem fill_get? {raw : List (ℤ × ℚ)} {s e : ℤ} {k : ℕ}
    (hnd : (raw.map Prod.fst).Nodup) (hk : k < (e - s + 1).toNat) :
    (fill_missing_dates raw s e).get? k
      = some (s + (k : ℤ), interpAt (ratesVec raw s e) k) := by
  have hm : (mergeLeft (dateRange s e) raw).get? k
      = some (s + (k : ℤ), lookupRate raw (s + (k : ℤ))) := by
    rw [mergeLeft_eq_map hnd, List.get?_map, dateRange_get? hk]
    rfl
  have := fill_get?_of_merged hm
  rw [merged_map_snd hnd] at this
  exact this

theorem fill_length {raw : List (ℤ × ℚ)} (hnd : (raw.map Prod.fst).Nodup) (s e : ℤ) :
    (fill_missing_dates raw s e).length = (e - s + 1).toNat := by
  rw [fill_length_eq_merged, mergeLeft_eq_map hnd, List.length_map, dateRange_length]

theorem fill_map_fst {raw : List (ℤ × ℚ)} (hnd : (raw.map Prod.fst).Nodup) (s e : ℤ) :
    (fill_missing_dates raw s e).map Prod.fst = dateRange s e := by
  apply List.ext_get?
  intro n
  by_cases hn : n < (e - s + 1).toNat
  · rw [List.get?_map, fill_get? hnd hn, dateRange_get? hn]
    rfl
  · have h1 : (fill_missing_dates raw s e).get? n = none :=
      List.get?_eq_none.mpr (by rw [fill_length hnd]; omega)
    have h2 : (dateRange s e).get? n = none :=
      List.get?_eq_none.mpr (by rw [dateRange_length]; omega)
    rw [List.get?_map, h1, h2]
    rfl

/-! ### Claim C3: length and endpoints of the complete series -/

/-- C3.  For every `DateBound` with `start ≤ end` (and a raw observation
set with unique dates, as the data model guarantees), the complete series
has exactly `(end - start) + 1` entries, its first entry is dated
`DateBound.start` and its last entry is dated `DateBound.end`. -/
theorem fill_missing_dates_length_endpoints
    (raw : List (ℤ × ℚ)) (s e : ℤ) (hnd : (raw.map Prod.fst).Nodup) (hse : s ≤ e) :
    (fill_missing_dates raw s e).length = (e - s).toNat + 1
    ∧ (fill_missing_dates raw s e).head?.map Prod.fst = some s
    ∧ (fill_missing_dates raw s e).getLast?.map Prod.fst = some e := by
  have hlen := fill_length hnd s e
  refine ⟨by rw [hlen]; omega, ?_, ?_⟩
  · have h0 : (0 : ℕ) < (e - s + 1).toNat := by omega
    rw [← List.get?_zero, fill_get? hnd h0, Option.map_some']
    norm_num
  · rw [List.getLast?_eq_get?, hlen]
    have hlt : (e - s + 1).toNat - 1 < (e - s + 1).toNat := by omega
    rw [fill_get? hnd hlt, Option.map_some']
    have : s + (((e - s + 1).toNat - 1 : ℕ) : ℤ) = e := by omega
    rw [this]

/-- C3 witness. -/
theorem fill_missing_dates_length_endpoints_witness :
    (fill_missing_dates [((1 : ℤ), (10 : ℚ))] 1 3).length = ((3 : ℤ) - 1).toNat + 1
    ∧ (fill_missing_dates [((1 : ℤ), (10 : ℚ))] 1 3).head?.map Prod.fst = some 1
    ∧ (fill_missing_dates [((1 : ℤ), (10 : ℚ))] 1 3).getLast?.map Prod.fst = some 3 :=
  fill_missing_dates_length_endpoints [((1 : ℤ), (10 : ℚ))] 1 3 (by decide) (by decide)

/-! ### Claim C4: dates strictly increasing, one entry per day -/

/-- C4.  For every `DateBound` with `start ≤ end` and every raw observation
set (with unique dates, as the data model guarantees), the output dates are
exactly the calendar days of the bound in strictly increasing order: no
duplicates, no gaps, exactly one entry per day in the bound. -/
theorem fill_missing_dates_dates_strict_complete
    (raw : List (ℤ × ℚ)) (s e : ℤ) (hnd : (raw.map Prod.fst).Nodup) (hse : s ≤ e) :
    (fill_missing_dates raw s e).map Prod.fst = dateRange s e
    ∧ ((fill_missing_dates raw s e).map Prod.fst).Pairwise (· < ·)
    ∧ ∀ d : ℤ, s ≤ d → d ≤ e →
        ((fill_missing_dates raw s e).map Prod.fst).count d = 1 := by
  have hmf := fill_map_fst hnd s e
  refine ⟨hmf, by rw [hmf]; exact dateRange_pairwise s e, ?_⟩
  intro d h1 h2
  rw [hmf]
  exact List.count_eq_one_of_mem (dateRange_nodup s e) (mem_dateRange.mpr ⟨h1, h2⟩)

/-- C4 witness. -/
theorem fill_missing_dates_dates_strict_complete_witness :
    (fill_missing_dates [((1 : ℤ), (10 : ℚ))] 1 3).map Prod.fst = dateRange 1 3
    ∧ ((fill_missing_dates [((1 : ℤ), (10 : ℚ))] 1 3).map Prod.fst).Pairwise (· < ·)
    ∧ ∀ d : ℤ, 1 ≤ d → d ≤ 3 →
        ((fill_missing_dates [((1 : ℤ), (10 : ℚ))] 1 3).map Prod.fst).count d = 1 :=
  fill_missing_dates_dates_strict_complete [((1 : ℤ), (10 : ℚ))] 1 3 (by decide) (by decide)

/-! ### Claim C5: observed days pass through unchanged -/

/-- C5.  Every day of the bound carrying a raw observation keeps exactly
the observed rate, and when every day of the bound is observed the output
is a pure pass-through of the raw set: each entry carries the raw rate
of its own date. -/
theorem fill_missing_dates_pass_through
    (raw : List (ℤ × ℚ)) (s e : ℤ) (hnd : (raw.map Prod.fst).Nodup) (hse : s ≤ e) :
    (∀ d : ℤ, ∀ r : ℚ, (d, r) ∈ raw → s ≤ d → d ≤ e →
        (fill_missing_dates raw s e).get? (d - s).toNat = some (d, some r))
    ∧ ((∀ c : ℤ, s ≤ c → c ≤ e → ∃ rr : ℚ, (c, rr) ∈ raw) →
        ∀ p ∈ fill_missing_dates raw s e, ∃ rr : ℚ, (p.1, rr) ∈ raw ∧ p.2 = some rr) := by
  constructor
  · intro d r hmem h1 h2
    have hk : (d - s).toNat < (e - s + 1).toNat := by omega
    rw [fill_get? hnd hk]
    have hd : s + (((d - s).toNat : ℕ) : ℤ) = d := by omega
    have hv : (ratesVec raw s e).get? (d - s).toNat = some (some r) := by
      rw [ratesVec_get? hk, hd, lookupRate_eq_some hnd hmem]
    rw [interpAt_valid hv, hd]
  · intro hall p hp
    obtain ⟨k, hk⟩ := List.mem_iff_get?.mp hp
    have hklen : k < (e - s + 1).toNat := by
      have := (List.get?_eq_some.mp hk).1
      rw [fill_length hnd] at this
      exact this
    rw [fill_get? hnd hklen] at hk
    injection hk with hk
    obtain ⟨rr, hrr⟩ := hall (s + (k : ℤ)) (by omega) (by omega)
    have hv : (ratesVec raw s e).get? k = some (some rr) := by
      rw [ratesVec_get? hklen, lookupRate_eq_some hnd hrr]
    refine ⟨rr, ?_, ?_⟩
    · rw [← hk]
      exact hrr
    · rw [← hk]
      exact interpAt_valid hv

/-- C5 witness. -/
theorem fill_missing_dates_pass_through_witness :
    (fill_missing_dates [((1 : ℤ), (10 : ℚ)), ((2 : ℤ), (7 : ℚ))] 1 2).get?
        ((2 : ℤ) - 1).toNat = some (2, some 7) :=
  (fill_missing_dates_pass_through [((1 : ℤ), (10 : ℚ)), ((2 : ℤ), (7 : ℚ))] 1 2
    (by decide) (by decide)).1 2 7 (by decide) (by decide) (by decide)

/-! ### The three `interpAt` branches on a missing cell -/

theorem interpAt_gap {v : List (Option ℚ)} {i p n : ℕ} {vp vn : ℚ}
    (hvi : v.get? i = some none)
    (hp : prevValid v i = some (p, vp)) (hn : nextValid v i = some (n, vn)) :
    interpAt v i
      = some (vp + (vn - vp) * ((i : ℚ) - (p : ℚ)) / ((n : ℚ) - (p : ℚ))) := by
  rw [interpAt, hvi, hp, hn]

theorem interpAt_leading {v : List (Option ℚ)} {i : ℕ}
    (hvi : v.get? i = some none) (hp : prevValid v i = none) : interpAt v i = none := by
  rw [interpAt, hvi, hp]

theorem interpAt_trailing {v : List (Option ℚ)} {i p : ℕ} {vp : ℚ}
    (hvi : v.get? i = some none)
    (hp : prevValid v i = some (p, vp)) (hn : nextValid v i = none) :
    interpAt v i = some vp := by
  rw [interpAt, hvi, hp, hn]

theorem toNat_cast_q {a : ℤ} (h : 0 ≤ a) : ((a.toNat : ℕ) : ℚ) = (a : ℚ) := by
  rw [← Int.cast_natCast, Int.toNat_of_nonneg h]

/-! ### Claim C1: interior gaps get the linear interpolation formula -/

/-- C1.  A day `d` of the bound with no direct observation, bracketed by
the nearest observed days `(d0, r0)` and `(d1, r1)` (no observation lies
strictly between them), receives the rate
`r0 + (r1 - r0) * (d - d0) / (d1 - d0)`, date differences counted in
calendar days. -/
theorem fill_missing_dates_interior_linear
    (raw : List (ℤ × ℚ)) (s e d d0 d1 : ℤ) (r0 r1 : ℚ)
    (hnd : (raw.map Prod.fst).Nodup)
    (h0mem : (d0, r0) ∈ raw) (h1mem : (d1, r1) ∈ raw)
    (hs0 : s ≤ d0) (h0d : d0 < d) (hd1 : d < d1) (h1e : d1 ≤ e)
    (hgap : ∀ q ∈ raw, q.1 ≤ d0 ∨ d1 ≤ q.1) :
    (fill_missing_dates raw s e).get? (d - s).toNat
      = some (d, some (r0 + (r1 - r0) * (((d : ℚ) - (d0 : ℚ)) / ((d1 : ℚ) - (d0 : ℚ))))) := by
  have hk : (d - s).toNat < (e - s + 1).toNat := by omega
  have hkp : (d0 - s).toNat < (e - s + 1).toNat := by omega
  have hkn : (d1 - s).toNat < (e - s + 1).toNat := by omega
  have hvi : (ratesVec raw s e).get? (d - s).toNat = some none := by
    rw [ratesVec_get? hk, show s + (((d - s).toNat : ℕ) : ℤ) = d from by omega,
      lookupRate_eq_none (fun q hq => by rcases hgap q hq with h | h <;> omega)]
  have hvp : (ratesVec raw s e).get? (d0 - s).toNat = some (some r0) := by
    rw [ratesVec_get? hkp, show s + (((d0 - s).toNat : ℕ) : ℤ) = d0 from by omega,
      lookupRate_eq_some hnd h0mem]
  have hvn : (ratesVec raw s e).get? (d1 - s).toNat = some (some r1) := by
    rw [ratesVec_get? hkn, show s + (((d1 - s).toNat : ℕ) : ℤ) = d1 from by omega,
      lookupRate_eq_some hnd h1mem]
  have hbetween : ∀ k : ℕ, (d0 - s).toNat < k → k < (d1 - s).toNat →
      ∀ y : ℚ, (ratesVec raw s e).get? k ≠ some (some y) := by
    intro k hk1 hk2 y hcon
    have hklen : k < (e - s + 1).toNat := by omega
    rw [ratesVec_get? hklen,
      lookupRate_eq_none (fun q hq => by rcases hgap q hq with h | h <;> omega)] at hcon
    exact Option.noConfusion (Option.some.inj hcon)
  have hprev : prevValid (ratesVec raw s e) (d - s).toNat = some ((d0 - s).toNat, r0) :=
    prevValid_eq_some (by omega) hvp (fun k h1 h2 => hbetween k h1 (by omega))
  have hnext : nextValid (ratesVec raw s e) (d - s).toNat = some ((d1 - s).toNat, r1) :=
    nextValid_eq_some (by omega) hvn (fun k h1 h2 => hbetween k (by omega) h2)
  rw [fill_get? hnd hk, show s + (((d - s).toNat : ℕ) : ℤ) = d from by omega,
    interpAt_gap hvi hprev hnext]
  have hiq : (((d - s).toNat : ℕ) : ℚ) - (((d0 - s).toNat : ℕ) : ℚ)
      = (d : ℚ) - (d0 : ℚ) := by
    rw [toNat_cast_q (by omega : (0 : ℤ) ≤ d - s),
      toNat_cast_q (by omega : (0 : ℤ) ≤ d0 - s)]
    push_cast
    ring
  have hnq : (((d1 - s).toNat : ℕ) : ℚ) - (((d0 - s).toNat : ℕ) : ℚ)
      = (d1 : ℚ) - (d0 : ℚ) := by
    rw [toNat_cast_q (by omega : (0 : ℤ) ≤ d1 - s),
      toNat_cast_q (by omega : (0 : ℤ) ≤ d0 - s)]
    push_cast
    ring
  rw [hiq, hnq, mul_div_assoc]

/-- C1 witness: the example of the spec, day 2 between (1, 10) and (3, 12)
gets 10 + (12 - 10) * (2 - 1) / (3 - 1) = 11. -/
theorem fill_missing_dates_interior_linear_witness :
    (fill_missing_dates [((1 : ℤ), (10 : ℚ)), ((3 : ℤ), (12 : ℚ))] 1 3).get?
        ((2 : ℤ) - 1).toNat
      = some (2, some (10 + (12 - 10) * ((((2 : ℤ) : ℚ) - ((1 : ℤ) : ℚ))
          / (((3 : ℤ) : ℚ) - ((1 : ℤ) : ℚ))))) :=
  fill_missing_dates_interior_linear [((1 : ℤ), (10 : ℚ)), ((3 : ℤ), (12 : ℚ))]
    1 3 2 1 3 10 12 (by decide) (by decide) (by decide) (by decide) (by decide)
    (by decide) (by decide) (by decide)

/-! ### Claim C2 (corrected): boundary gaps -/

/-- C2 counterexample.  With the single observation (day 1, 10) on the
bound [0, 2], day 2 lies strictly after the last (and only) observed day 1,
yet the completer produces the extrapolated rate 10 for it — refuting that
no rate is ever produced for a day outside the bracketing range. -/
theorem fill_missing_dates_extrapolates_after_last :
    (fill_missing_dates [((1 : ℤ), (10 : ℚ))] 0 2).get? 2 = some (2, some 10) := by
  decide

/-- C2 amended.  A missing day strictly before the first observation keeps
a missing (`NaN`) rate — no value is produced, though no distinct
`UnfillableGap` condition is signalled — while a missing day strictly
after the last in-bound observation is forward-filled with the last
observed rate (flat extrapolation) rather than left unfilled. -/
theorem fill_missing_dates_boundary_gaps
    (raw : List (ℤ × ℚ)) (s e : ℤ) (hnd : (raw.map Prod.fst).Nodup) :
    (∀ d : ℤ, s ≤ d → d ≤ e → (∀ q ∈ raw, q.1 < s ∨ d < q.1) →
        (fill_missing_dates raw s e).get? (d - s).toNat = some (d, none))
    ∧ (∀ d dL : ℤ, ∀ rL : ℚ, (dL, rL) ∈ raw → s ≤ dL → dL < d → d ≤ e →
        (∀ q ∈ raw, q.1 ≤ dL ∨ e < q.1) →
        (fill_missing_dates raw s e).get? (d - s).toNat = some (d, some rL)) := by
  constructor
  · intro d h1 h2 hbefore
    have hk : (d - s).toNat < (e - s + 1).toNat := by omega
    have hvi : (ratesVec raw s e).get? (d - s).toNat = some none := by
      rw [ratesVec_get? hk, show s + (((d - s).toNat : ℕ) : ℤ) = d from by omega,
        lookupRate_eq_none (fun q hq => by rcases hbefore q hq with h | h <;> omega)]
    have hprev : prevValid (ratesVec raw s e) (d - s).toNat = none := by
      apply prevValid_eq_none
      intro k hki x hcon
      have hklen : k < (e - s + 1).toNat := by omega
      rw [ratesVec_get? hklen,
        lookupRate_eq_none (fun q hq => by rcases hbefore q hq with h | h <;> omega)] at hcon
      exact Option.noConfusion (Option.some.inj hcon)
    rw [fill_get? hnd hk, show s + (((d - s).toNat : ℕ) : ℤ) = d from by omega,
      interpAt_leading hvi hprev]
  · intro d dL rL hLmem hsL hLd hde hafter
    have hk : (d - s).toNat < (e - s + 1).toNat := by omega
    have hkp : (dL - s).toNat < (e - s + 1).toNat := by omega
    have hvi : (ratesVec raw s e).get? (d - s).toNat = some none := by
      rw [ratesVec_get? hk, show s + (((d - s).toNat : ℕ) : ℤ) = d from by omega,
        lookupRate_eq_none (fun q hq => by rcases hafter q hq with h | h <;> omega)]
    have hvp : (ratesVec raw s e).get? (dL - s).toNat = some (some rL) := by
      rw [ratesVec_get? hkp, show s + (((dL - s).toNat : ℕ) : ℤ) = dL from by omega,
        lookupRate_eq_some hnd hLmem]
    have hprev : prevValid (ratesVec raw s e) (d - s).toNat
        = some ((dL - s).toNat, rL) := by
      apply prevValid_eq_some (by omega) hvp
      intro k hk1 hk2 y hcon
      have hklen : k < (e - s + 1).toNat := by omega
      rw [ratesVec_get? hklen,
        lookupRate_eq_none (fun q hq => by rcases hafter q hq with h | h <;> omega)] at hcon
      exact Option.noConfusion (Option.some.inj hcon)
    have hnext : nextValid (ratesVec raw s e) (d - s).toNat = none := by
      apply nextValid_eq_none
      intro k hki x hcon
      by_cases hklen : k < (e - s + 1).toNat
      · rw [ratesVec_get? hklen,
          lookupRate_eq_none (fun q hq => by rcases hafter q hq with h | h <;> omega)] at hcon
        exact Option.noConfusion (Option.some.inj hcon)
      · rw [List.get?_eq_none.mpr (by rw [ratesVec_length]; omega)] at hcon
        exact Option.noConfusion hcon
    rw [fill_get? hnd hk, show s + (((d - s).toNat : ℕ) : ℤ) = d from by omega,
      interpAt_trailing hvi hprev hnext]

/-- C2 amended witness: bound [0, 2] with the single observation (1, 10):
day 0 stays missing, day 2 is flat-filled with 10. -/
theorem fill_missing_dates_boundary_gaps_witness :
    (fill_missing_dates [((1 : ℤ), (10 : ℚ))] 0 2).get? ((0 : ℤ) - 0).toNat
        = some (0, none)
    ∧ (fill_missing_dates [((1 : ℤ), (10 : ℚ))] 0 2).get? ((2 : ℤ) - 0).toNat
        = some (2, some 10) :=
  ⟨(fill_missing_dates_boundary_gaps [((1 : ℤ), (10 : ℚ))] 0 2 (by decide)).1
      0 (by decide) (by decide) (by decide),
    (fill_missing_dates_boundary_gaps [((1 : ℤ), (10 : ℚ))] 0 2 (by decide)).2
      2 1 10 (by decide) (by decide) (by decide) (by decide) (by decide)⟩

/-! ### Claim C6 (corrected): empty raw set -/

/-- C6 counterexample.  With an empty raw observation set (a fetched frame
with a `Close` column and zero rows) the pipeline does not signal any
`NoData` condition: it returns a full-length series whose every rate is
missing, not `none`. -/
theorem pipeline_returns_rateless_on_empty :
    get_exchange_rate (fun _ => Except.ok ⟨["Close"], []⟩) "EUR" "CHF" 0 2
      = some [((0 : ℤ), (none : Option ℚ)), (1, none), (2, none)] := by decide

/-- C6 amended.  On an empty raw observation set the completer returns the
full date range with every rate missing (`NaN`), and the pipeline hands
this rate-less series back as a successful (`some`) result; no `NoData`
condition is signalled. -/
theorem fill_missing_dates_empty_raw (s e : ℤ) :
    fill_missing_dates [] s e = (dateRange s e).map (fun d => (d, (none : Option ℚ)))
    ∧ ∀ (fetch : String → Except String PriceFrame) (base quote : String) (f : PriceFrame),
        fetch (resolveSymbol base quote) = Except.ok f → selectClose f = Except.ok [] →
        get_exchange_rate fetch base quote s e
          = some ((dateRange s e).map (fun d => (d, (none : Option ℚ)))) := by
  have hnd : (([] : List (ℤ × ℚ)).map Prod.fst).Nodup := by simp
  have hfill : fill_missing_dates [] s e
      = (dateRange s e).map (fun d => (d, (none : Option ℚ))) := by
    apply List.ext_get?
    intro n
    by_cases hn : n < (e - s + 1).toNat
    · have hvi : (ratesVec [] s e).get? n = some none := by
        rw [ratesVec_get? hn]
        rfl
      have hprev : prevValid (ratesVec [] s e) n = none := by
        apply prevValid_eq_none
        intro k hk x hcon
        by_cases hklen : k < (e - s + 1).toNat
        · rw [ratesVec_get? hklen] at hcon
          exact Option.noConfusion (Option.some.inj hcon)
        · rw [List.get?_eq_none.mpr (by rw [ratesVec_length]; omega)] at hcon
          exact Option.noConfusion hcon
      rw [fill_get? hnd hn, List.get?_map, dateRange_get? hn,
        interpAt_leading hvi hprev]
      rfl
    · rw [List.get?_eq_none.mpr (by rw [fill_length hnd]; omega),
        List.get?_eq_none.mpr (by rw [List.length_map, dateRange_length]; omega)]
  refine ⟨hfill, ?_⟩
  intro fetch base quote f hf hsel
  simp only [get_exchange_rate, hf, hsel, hfill]

/-- C6 amended witness. -/
theorem fill_missing_dates_empty_raw_witness :
    get_exchange_rate (fun _ => Except.ok ⟨["Close"], []⟩) "EUR" "CHF" 0 1
      = some ((dateRange 0 1).map (fun d => (d, (none : Option ℚ)))) :=
  (fill_missing_dates_empty_raw 0 1).2 (fun _ => Except.ok ⟨["Close"], []⟩)
    "EUR" "CHF" ⟨["Close"], []⟩ rfl rfl

/-! ### Claim C7: symbol resolution -/

/-- C7.  For non-empty currency codes the resolver is total and two-way:
a `BTC` quote (after upper-casing) yields the crypto-pair query
`"BTC-" ++ base`, any other quote yields the concatenated FX ticker
`base ++ quote ++ "=X"`. -/
theorem resolveSymbol_spec (base quote : String) (hb : base ≠ "") (hq : quote ≠ "") :
    (upper quote = "BTC" → resolveSymbol base quote = "BTC-" ++ base)
    ∧ (upper quote ≠ "BTC" → resolveSymbol base quote = base ++ quote ++ "=X") := by
  constructor
  · intro h
    rw [resolveSymbol, if_pos h]
  · intro h
    rw [resolveSymbol, if_neg h]

/-- C7 witness: (EUR, BTC) resolves to the crypto-pair convention and
(EUR, CHF) to the standard FX ticker. -/
theorem resolveSymbol_spec_witness :
    resolveSymbol "EUR" "BTC" = "BTC-" ++ "EUR"
    ∧ resolveSymbol "EUR" "CHF" = "EUR" ++ "CHF" ++ "=X" :=
  ⟨(resolveSymbol_spec "EUR" "BTC" (by decide) (by decide)).1 (by decide),
    (resolveSymbol_spec "EUR" "CHF" (by decide) (by decide)).2 (by decide)⟩

/-! ### Claim C9: the pipeline never propagates an exception -/

/-- C9.  Every failure of the fetch or of the column reshaping is caught
and mapped to `none`; on success the caller receives the completed series.
In every case the result is either `none` or a completed series — no
exception escapes `get_exchange_rate`. -/
theorem get_exchange_rate_total (fetch : String → Except String PriceFrame)
    (base quote : String) (s e : ℤ) :
    (∀ err : String, fetch (resolveSymbol base quote) = Except.error err →
        get_exchange_rate fetch base quote s e = none)
    ∧ (∀ (f : PriceFrame) (err : String),
        fetch (resolveSymbol base quote) = Except.ok f →
        selectClose f = Except.error err →
        get_exchange_rate fetch base quote s e = none)
    ∧ (∀ (f : PriceFrame) (raw : List (ℤ × ℚ)),
        fetch (resolveSymbol base quote) = Except.ok f →
        selectClose f = Except.ok raw →
        get_exchange_rate fetch base quote s e = some (fill_missing_dates raw s e))
    ∧ (get_exchange_rate fetch base quote s e = none
        ∨ ∃ out, get_exchange_rate fetch base quote s e = some out) := by
  refine ⟨?_, ?_, ?_, ?_⟩
  · intro err herr
    simp only [get_exchange_rate, herr]
  · intro f err hf hsel
    simp only [get_exchange_rate, hf, hsel]
  · intro f raw hf hsel
    simp only [get_exchange_rate, hf, hsel]
  · cases h : get_exchange_rate fetch base quote s e with
    | none => exact Or.inl rfl
    | some out => exact Or.inr ⟨out, rfl⟩

/-- C9 witness: a raised fetch error and a frame without a `Close` column
both come back as `none`. -/
theorem get_exchange_rate_total_witness :
    get_exchange_rate (fun _ => Except.error "HTTPError") "EUR" "CHF" 0 1 = none
    ∧ get_exchange_rate (fun _ => Except.ok ⟨["Open"], []⟩) "EUR" "CHF" 0 1 = none :=
  ⟨(get_exchange_rate_total (fun _ => Except.error "HTTPError") "EUR" "CHF" 0 1).1
      "HTTPError" rfl,
    (get_exchange_rate_total (fun _ => Except.ok ⟨["Open"], []⟩) "EUR" "CHF" 0 1).2.1
      ⟨["Open"], []⟩ "KeyError: Close" rfl rfl⟩

/-! ### Claim C8 (corrected): duplicate raw dates are not collapsed -/

theorem mem_mergeBlock_fst {raw : List (ℤ × ℚ)} {c : ℤ} {p : ℤ × Option ℚ}
    (h : p ∈ mergeBlock raw c) : p.1 = c := by
  simp only [mergeBlock] at h
  by_cases hemp : (raw.filter (fun q => q.1 = c)).isEmpty
  · rw [if_pos hemp] at h
    rw [List.mem_singleton.mp h]
  · rw [if_neg hemp] at h
    obtain ⟨q, hq, rfl⟩ := List.mem_map.mp h
    simpa using List.of_mem_filter hq

theorem mem_mergeBlock_of_ne_nil {raw : List (ℤ × ℚ)} {c : ℤ} {p : ℤ × Option ℚ}
    (hne : raw.filter (fun q => q.1 = c) ≠ []) (h : p ∈ mergeBlock raw c) :
    ∃ q ∈ raw, q.1 = c ∧ p = (q.1, some q.2) := by
  simp only [mergeBlock] at h
  rw [if_neg (by simpa [List.isEmpty_iff] using hne)] at h
  obtain ⟨q, hq, rfl⟩ := List.mem_map.mp h
  exact ⟨q, List.mem_of_mem_filter hq, by simpa using List.of_mem_filter hq, rfl⟩

theorem mem_mergeLeft {raw : List (ℤ × ℚ)} {p : ℤ × Option ℚ} :
    ∀ {ds : List ℤ}, p ∈ mergeLeft ds raw → ∃ c ∈ ds, p ∈ mergeBlock raw c := by
  intro ds
  induction ds with
  | nil => intro h; exact absurd h (List.not_mem_nil p)
  | cons c t ih =>
    intro h
    rcases List.mem_append.mp h with h | h
    · exact ⟨c, by simp, h⟩
    · obtain ⟨c', hc', hp⟩ := ih h
      exact ⟨c', by simp [hc'], hp⟩

theorem countP_mergeBlock_self {raw : List (ℤ × ℚ)} {d : ℤ}
    (hne : raw.filter (fun q => q.1 = d) ≠ []) :
    (mergeBlock raw d).countP (fun p => p.1 = d)
      = raw.countP (fun q => q.1 = d) := by
  have hall : ∀ p ∈ mergeBlock raw d, (fun p : ℤ × Option ℚ => decide (p.1 = d)) p := by
    intro p hp
    simpa using mem_mergeBlock_fst hp
  rw [List.countP_eq_length.mpr hall]
  simp only [mergeBlock]
  rw [if_neg (by simpa [List.isEmpty_iff] using hne), List.length_map,
    List.countP_eq_length_filter]

theorem countP_mergeBlock_other {raw : List (ℤ × ℚ)} {c d : ℤ} (hcd : c ≠ d) :
    (mergeBlock raw c).countP (fun p => p.1 = d) = 0 := by
  rw [List.countP_eq_zero]
  intro p hp
  simp [mem_mergeBlock_fst hp, hcd]

theorem countP_mergeLeft_zero {raw : List (ℤ × ℚ)} {d : ℤ} {ds : List ℤ}
    (hd : d ∉ ds) : (mergeLeft ds raw).countP (fun p => p.1 = d) = 0 := by
  rw [List.countP_eq_zero]
  intro p hp
  obtain ⟨c, hc, hpc⟩ := mem_mergeLeft hp
  have : p.1 = c := mem_mergeBlock_fst hpc
  simp only [this, decide_eq_true_eq]
  intro hcd
  exact hd (hcd ▸ hc)

theorem countP_mergeLeft {raw : List (ℤ × ℚ)} {d : ℤ}
    (hne : raw.filter (fun q => q.1 = d) ≠ []) :
    ∀ {ds : List ℤ}, ds.Nodup → d ∈ ds →
      (mergeLeft ds raw).countP (fun p => p.1 = d)
        = raw.countP (fun q => q.1 = d) := by
  intro ds
  induction ds with
  | nil => intro _ h; exact absurd h (List.not_mem_nil d)
  | cons c t ih =>
    intro hnd hd
    rw [List.nodup_cons] at hnd
    rw [mergeLeft, List.countP_append]
    by_cases hcd : c = d
    · subst hcd
      rw [countP_mergeBlock_self hne, countP_mergeLeft_zero hnd.1, Nat.add_zero]
    · have hdt : d ∈ t := by
        rcases List.mem_cons.mp hd with h | h
        · exact absurd h.symm hcd
        · exact h
      rw [countP_mergeBlock_other hcd, ih hnd.2 hdt, Nat.zero_add]

theorem fill_map_fst_general (raw : List (ℤ × ℚ)) (s e : ℤ) :
    (fill_missing_dates raw s e).map Prod.fst
      = (mergeLeft (dateRange s e) raw).map Prod.fst := by
  apply List.ext_get?
  intro n
  rw [List.get?_map, List.get?_map]
  by_cases hn : n < (mergeLeft (dateRange s e) raw).length
  · obtain ⟨p, hp⟩ : ∃ p, (mergeLeft (dateRange s e) raw).get? n = some p := by
      cases h : (mergeLeft (dateRange s e) raw).get? n with
      | none => rw [List.get?_eq_none] at h; omega
      | some p => exact ⟨p, rfl⟩
    rw [hp, fill_get?_of_merged hp]
    rfl
  · rw [List.get?_eq_none.mpr (by rw [fill_length_eq_merged]; omega),
      List.get?_eq_none.mpr (by omega)]

theorem countP_fill_eq_countP_merged (raw : List (ℤ × ℚ)) (s e d : ℤ) :
    (fill_missing_dates raw s e).countP (fun p => p.1 = d)
      = (mergeLeft (dateRange s e) raw).countP (fun p => p.1 = d) := by
  have h1 : (fill_missing_dates raw s e).countP (fun p => p.1 = d)
      = ((fill_missing_dates raw s e).map Prod.fst).countP (fun x => x = d) := by
    rw [List.countP_map]
    rfl
  have h2 : (mergeLeft (dateRange s e) raw).countP (fun p => p.1 = d)
      = ((mergeLeft (dateRange s e) raw).map Prod.fst).countP (fun x => x = d) := by
    rw [List.countP_map]
    rfl
  rw [h1, h2, fill_map_fst_general]

/-- C8 counterexample.  With duplicate raw observations (0, 1) and (0, 2)
on the bound [0, 1], the left merge keeps one row per duplicate: the output
has two entries for date 0 (the first carrying rate 1, not the last-seen
2) and three entries in total instead of the claimed single entry per
date. -/
theorem fill_missing_dates_duplicates_not_collapsed :
    fill_missing_dates [((0 : ℤ), (1 : ℚ)), ((0 : ℤ), (2 : ℚ))] 0 1
      = [(0, some 1), (0, some 2), (1, some 2)]
    ∧ (fill_missing_dates [((0 : ℤ), (1 : ℚ)), ((0 : ℤ), (2 : ℚ))] 0 1).length = 3 := by
  decide

/-- C8 amended.  The completer stays total on duplicated dates, but a date
of the bound carried by several raw observations yields one output entry
per occurrence — each carrying the rate of its own occurrence — rather than a
single entry carrying the last-seen value. -/
theorem fill_missing_dates_duplicate_dates
    (raw : List (ℤ × ℚ)) (s e d : ℤ) (hsd : s ≤ d) (hde : d ≤ e)
    (hobs : raw.countP (fun q => q.1 = d) ≠ 0) :
    (fill_missing_dates raw s e).countP (fun p => p.1 = d)
        = raw.countP (fun q => q.1 = d)
    ∧ ∀ p ∈ fill_missing_dates raw s e, p.1 = d →
        ∃ q ∈ raw, q.1 = d ∧ p.2 = some q.2 := by
  have hne : raw.filter (fun q => q.1 = d) ≠ [] := by
    intro hcon
    rw [List.countP_eq_length_filter, hcon] at hobs
    exact hobs rfl
  constructor
  · rw [countP_fill_eq_countP_merged]
    exact countP_mergeLeft hne (dateRange_nodup s e) (mem_dateRange.mpr ⟨hsd, hde⟩)
  · intro p hp hpd
    obtain ⟨k, hk⟩ := List.mem_iff_get?.mp hp
    rw [fill_eq_zip] at hk
    obtain ⟨pm, r, hpm, hr, hpeq⟩ := zipWith_get?_inv hk
    have hklen : k < ((mergeLeft (dateRange s e) raw).map Prod.snd).length := by
      have := (List.get?_eq_some.mp hpm).1
      rw [List.length_map]
      exact this
    rw [interpolate_get? hklen] at hr
    have hpmmem : pm ∈ mergeLeft (dateRange s e) raw := List.get?_mem hpm
    obtain ⟨c, _, hpblock⟩ := mem_mergeLeft hpmmem
    have hpc : pm.1 = c := mem_mergeBlock_fst hpblock
    have hcd : c = d := by
      rw [hpeq] at hpd
      simp only at hpd
      rw [← hpc, hpd]
    subst hcd
    obtain ⟨q, hqmem, hq1, hpm2⟩ := mem_mergeBlock_of_ne_nil hne hpblock
    have hv : ((mergeLeft (dateRange s e) raw).map Prod.snd).get? k
        = some (some q.2) := by
      rw [List.get?_map, hpm, hpm2]
      rfl
    refine ⟨q, hqmem, hq1, ?_⟩
    rw [hpeq]
    injection hr with hr
    simp only
    rw [← hr, interpAt_valid hv]

/-- C8 amended witness: duplicates (0, 1), (0, 2) each produce an entry. -/
theorem fill_missing_dates_duplicate_dates_witness :
    (fill_missing_dates [((0 : ℤ), (1 : ℚ)), ((0 : ℤ), (2 : ℚ))] 0 1).countP
        (fun p => p.1 = 0)
      = [((0 : ℤ), (1 : ℚ)), ((0 : ℤ), (2 : ℚ))].countP (fun q => q.1 = 0) :=
  (fill_missing_dates_duplicate_dates [((0 : ℤ), (1 : ℚ)), ((0 : ℤ), (2 : ℚ))] 0 1 0
    (by decide) (by decide) (by decide)).1

/-! ### Converse characterizations of `prevValid` and `nextValid` -/

theorem prevValid_spec_some {v : List (Option ℚ)} :
    ∀ {i p : ℕ} {x : ℚ}, prevValid v i = some (p, x) →
      p < i ∧ v.get? p = some (some x)
        ∧ ∀ k, p < k → k < i → ∀ y : ℚ, v.get? k ≠ some (some y) := by
  intro i
  induction i with
  | zero => intro p x h; exact absurd h (by rw [prevValid]; exact Option.noConfusion)
  | succ m ih =>
    intro p x h
    cases hv : v.get? m with
    | some o =>
      cases o with
      | some y =>
        rw [show prevValid v (m + 1) = some (m, y) from by simp only [prevValid, hv]] at h
        obtain ⟨rfl, rfl⟩ : p = m ∧ x = y := by
          injection h with h
          exact ⟨(congrArg Prod.fst h).symm, (congrArg Prod.snd h).symm⟩
        exact ⟨by omega, hv, fun k h1 h2 => by omega⟩
      | none =>
        rw [show prevValid v (m + 1) = prevValid v m from by simp only [prevValid, hv]] at h
        obtain ⟨h1, h2, h3⟩ := ih h
        refine ⟨by omega, h2, fun k hk1 hk2 y hcon => ?_⟩
        by_cases hkm : k = m
        · subst hkm
          rw [hv] at hcon
          exact Option.noConfusion (Option.some.inj hcon)
        · exact h3 k hk1 (by omega) y hcon
    | none =>
      rw [show prevValid v (m + 1) = prevValid v m from by simp only [prevValid, hv]] at h
      obtain ⟨h1, h2, h3⟩ := ih h
      refine ⟨by omega, h2, fun k hk1 hk2 y hcon => ?_⟩
      by_cases hkm : k = m
      · subst hkm
        rw [hv] at hcon
        exact Option.noConfusion hcon
      · exact h3 k hk1 (by omega) y hcon

theorem prevValid_spec_none {v : List (Option ℚ)} :
    ∀ {i : ℕ}, prevValid v i = none →
      ∀ k, k < i → ∀ y : ℚ, v.get? k ≠ some (some y) := by
  intro i
  induction i with
  | zero => intro _ k hk; omega
  | succ m ih =>
    intro h k hk y hcon
    cases hv : v.get? m with
    | some o =>
      cases o with
      | some z =>
        rw [show prevValid v (m + 1) = some (m, z) from by simp only [prevValid, hv]] at h
        exact Option.noConfusion h
      | none =>
        rw [show prevValid v (m + 1) = prevValid v m from by simp only [prevValid, hv]] at h
        by_cases hkm : k = m
        · subst hkm
          rw [hv] at hcon
          exact Option.noConfusion (Option.some.inj hcon)
        · exact ih h k (by omega) y hcon
    | none =>
      rw [show prevValid v (m + 1) = prevValid v m from by simp only [prevValid, hv]] at h
      by_cases hkm : k = m
      · subst hkm
        rw [hv] at hcon
        exact Option.noConfusion hcon
      · exact ih h k (by omega) y hcon

theorem nextValidAux_spec_some :
    ∀ (l : List (Option ℚ)) (a : ℕ) {n : ℕ} {x : ℚ}, nextValidAux l a = some (n, x) →
      ∃ m, n = a + m ∧ l.get? m = some (some x)
        ∧ ∀ t, t < m → ∀ y : ℚ, l.get? t ≠ some (some y) := by
  intro l
  induction l with
  | nil => intro a n x h; exact absurd h (by rw [nextValidAux]; exact Option.noConfusion)
  | cons o rest ih =>
    intro a n x h
    cases o with
    | some y =>
      rw [show nextValidAux (some y :: rest) a = some (a, y) from rfl] at h
      obtain ⟨rfl, rfl⟩ : n = a ∧ x = y := by
        injection h with h
        exact ⟨(congrArg Prod.fst h).symm, (congrArg Prod.snd h).symm⟩
      exact ⟨0, by omega, rfl, fun t ht => by omega⟩
    | none =>
      rw [show nextValidAux (none :: rest) a = nextValidAux rest (a + 1) from rfl] at h
      obtain ⟨m, hm, hg, hbet⟩ := ih (a + 1) h
      refine ⟨m + 1, by omega, by rwa [List.get?_cons_succ], fun t ht y hcon => ?_⟩
      cases t with
      | zero =>
        rw [List.get?_cons_zero] at hcon
        exact Option.noConfusion (Option.some.inj hcon)
      | succ t' => exact hbet t' (by omega) y (by rwa [List.get?_cons_succ] at hcon)

theorem nextValidAux_spec_none :
    ∀ (l : List (Option ℚ)) (a : ℕ), nextValidAux l a = none →
      ∀ m, ∀ y : ℚ, l.get? m ≠ some (some y) := by
  intro l
  induction l with
  | nil => intro a _ m y hcon; rw [List.get?_nil] at hcon; exact Option.noConfusion hcon
  | cons o rest ih =>
    intro a h m y hcon
    cases o with
    | some z => exact Option.noConfusion h
    | none =>
      rw [show nextValidAux (none :: rest) a = nextValidAux rest (a + 1) from rfl] at h
      cases m with
      | zero =>
        rw [List.get?_cons_zero] at hcon
        exact Option.noConfusion (Option.some.inj hcon)
      | succ m' => exact ih (a + 1) h m' y (by rwa [List.get?_cons_succ] at hcon)

theorem nextValid_spec_some {v : List (Option ℚ)} {i n : ℕ} {x : ℚ}
    (h : nextValid v i = some (n, x)) :
    i < n ∧ v.get? n = some (some x)
      ∧ ∀ k, i < k → k < n → ∀ y : ℚ, v.get? k ≠ some (some y) := by
  obtain ⟨m, hm, hg, hbet⟩ := nextValidAux_spec_some (v.drop (i + 1)) (i + 1) h
  rw [List.get?_drop] at hg
  refine ⟨by omega, by rwa [show i + 1 + m = n from by omega] at hg, fun k h1 h2 y hcon => ?_⟩
  have hk : k = i + 1 + (k - (i + 1)) := by omega
  rw [hk] at hcon
  exact hbet (k - (i + 1)) (by omega) y (by rwa [List.get?_drop])

theorem nextValid_spec_none {v : List (Option ℚ)} {i : ℕ} (h : nextValid v i = none) :
    ∀ k, i < k → ∀ y : ℚ, v.get? k ≠ some (some y) := by
  intro k hk y hcon
  have hk' : k = i + 1 + (k - (i + 1)) := by omega
  rw [hk'] at hcon
  exact nextValidAux_spec_none (v.drop (i + 1)) (i + 1) h (k - (i + 1)) y
    (by rwa [List.get?_drop])

/-! ### Interpolation commutes with dropping an all-`NaN` prefix -/

theorem get?_replicate_none_lt {k t : ℕ} (h : t < k) :
    (List.replicate k (none : Option ℚ)).get? t = some none := by
  induction k generalizing t with
  | zero => omega
  | succ m ih =>
    rw [List.replicate_succ]
    cases t with
    | zero => rw [List.get?_cons_zero]
    | succ t' =>
      rw [List.get?_cons_succ]
      exact ih (by omega)

theorem interpAt_shift (k : ℕ) (w : List (Option ℚ)) (j : ℕ) (hj : j < w.length) :
    interpAt (List.replicate k (none : Option ℚ) ++ w) (k + j) = interpAt w j := by
  have hhigh : ∀ t : ℕ,
      (List.replicate k (none : Option ℚ) ++ w).get? (k + t) = w.get? t := by
    intro t
    rw [List.get?_append_right (by rw [List.length_replicate]; omega)]
    congr 1
    rw [List.length_replicate]
    omega
  have hlow : ∀ t, t < k →
      (List.replicate k (none : Option ℚ) ++ w).get? t = some none := by
    intro t ht
    rw [List.get?_append (by rw [List.length_replicate]; exact ht)]
    exact get?_replicate_none_lt ht
  cases hw : w.get? j with
  | none =>
    rw [List.get?_eq_none] at hw
    omega
  | some o =>
    cases o with
    | some x => rw [interpAt_valid (by rw [hhigh]; exact hw), interpAt_valid hw]
    | none =>
      have hvj : (List.replicate k (none : Option ℚ) ++ w).get? (k + j) = some none := by
        rw [hhigh]
        exact hw
      cases hp : prevValid w j with
      | none =>
        have hpv : prevValid (List.replicate k (none : Option ℚ) ++ w) (k + j) = none := by
          apply prevValid_eq_none
          intro t ht y hcon
          by_cases htk : t < k
          · rw [hlow t htk] at hcon
            exact Option.noConfusion (Option.some.inj hcon)
          · rw [show t = k + (t - k) from by omega, hhigh] at hcon
            exact prevValid_spec_none hp (t - k) (by omega) y hcon
        rw [interpAt_leading hvj hpv, interpAt_leading hw hp]
      | some pq =>
        obtain ⟨p, vp⟩ := pq
        obtain ⟨hplt, hpg, hpbet⟩ := prevValid_spec_some hp
        have hpv : prevValid (List.replicate k (none : Option ℚ) ++ w) (k + j)
            = some (k + p, vp) := by
          apply prevValid_eq_some (by omega) (by rw [hhigh]; exact hpg)
          intro t h1 h2 y hcon
          rw [show t = k + (t - k) from by omega, hhigh] at hcon
          exact hpbet (t - k) (by omega) (by omega) y hcon
        cases hn : nextValid w j with
        | none =>
          have hnv : nextValid (List.replicate k (none : Option ℚ) ++ w) (k + j) = none := by
            apply nextValid_eq_none
            intro t ht y hcon
            rw [show t = k + (t - k) from by omega, hhigh] at hcon
            exact nextValid_spec_none hn (t - k) (by omega) y hcon
          rw [interpAt_trailing hvj hpv hnv, interpAt_trailing hw hp hn]
        | some nq =>
          obtain ⟨n, vn⟩ := nq
          obtain ⟨hnlt, hng, hnbet⟩ := nextValid_spec_some hn
          have hnv : nextValid (List.replicate k (none : Option ℚ) ++ w) (k + j)
              = some (k + n, vn) := by
            apply nextValid_eq_some (by omega) (by rw [hhigh]; exact hng)
            intro t h1 h2 y hcon
            rw [show t = k + (t - k) from by omega, hhigh] at hcon
            exact hnbet (t - k) (by omega) (by omega) y hcon
          rw [interpAt_gap hvj hpv hnv, interpAt_gap hw hp hn]
          congr 1
          push_cast
          ring

theorem interpolate_replicate_append (k : ℕ) (w : List (Option ℚ)) :
    (interpolate (List.replicate k (none : Option ℚ) ++ w)).drop k = interpolate w := by
  apply List.ext_get?
  intro j
  rw [List.get?_drop]
  by_cases hj : j < w.length
  · have hv : k + j < (List.replicate k (none : Option ℚ) ++ w).length := by
      rw [List.length_append, List.length_replicate]
      omega
    rw [interpolate_get? hv, interpolate_get? hj, interpAt_shift k w j hj]
  · rw [List.get?_eq_none.mpr
        (by rw [interpolate_length, List.length_append, List.length_replicate]; omega),
      List.get?_eq_none.mpr (by rw [interpolate_length]; omega)]

/-! ### Splitting the merge at the first observed day -/

theorem dateRange_split {s m e : ℤ} (h1 : s ≤ m) (h2 : m ≤ e + 1) :
    dateRange s e = dateRange s (m - 1) ++ dateRange m e := by
  apply List.ext_get?
  intro n
  have hl1 : (dateRange s (m - 1)).length = (m - s).toNat := by
    rw [dateRange_length]
    omega
  by_cases hn1 : n < (m - s).toNat
  · rw [List.get?_append (by omega), dateRange_get? (by omega : n < (m - 1 - s + 1).toNat),
      dateRange_get? (by omega : n < (e - s + 1).toNat)]
  · by_cases hn2 : n < (e - s + 1).toNat
    · rw [List.get?_append_right (by omega), hl1,
        dateRange_get? (by omega : n - (m - s).toNat < (e - m + 1).toNat),
        dateRange_get? hn2]
      congr 1
      omega
    · rw [List.get?_eq_none.mpr (by rw [dateRange_length]; omega),
        List.get?_eq_none.mpr (by rw [List.length_append, hl1, dateRange_length]; omega)]

theorem mergeLeft_append (raw : List (ℤ × ℚ)) :
    ∀ a b : List ℤ, mergeLeft (a ++ b) raw = mergeLeft a raw ++ mergeLeft b raw := by
  intro a b
  induction a with
  | nil => rfl
  | cons c t ih => rw [List.cons_append, mergeLeft, mergeLeft, ih, List.append_assoc]

theorem mergeLeft_all_none (raw : List (ℤ × ℚ)) :
    ∀ ds : List ℤ, (∀ d ∈ ds, ∀ q ∈ raw, q.1 ≠ d) →
      mergeLeft ds raw = ds.map (fun d => (d, (none : Option ℚ))) := by
  intro ds
  induction ds with
  | nil => intro _; rfl
  | cons c t ih =>
    intro h
    have hfil : raw.filter (fun q => q.1 = c) = [] := by
      rw [List.filter_eq_nil_iff]
      intro q hq
      simpa using h c (by simp) q hq
    have hblock : mergeBlock raw c = [(c, none)] := by
      simp only [mergeBlock, hfil]
      rfl
    rw [mergeLeft, hblock, ih (fun d hd q hq => h d (by simp [hd]) q hq), List.map_cons]
    rfl

/-! ### Claim C10: leading gap — NaN prefix, suffix unaffected -/

/-- C10.  When the earliest raw observation (unique dates, non-empty set)
falls strictly after the start of the bound, `fill_missing_dates` still returns
a full-length series with no error: every entry dated before the earliest
observation carries a missing (`NaN`) rate, and the remainder of the
output is exactly what the completer produces on the shrunk bound starting
at that earliest observed day — the leading gap leaves later entries
unaffected. -/
theorem fill_missing_dates_leading_gap
    (raw : List (ℤ × ℚ)) (s e dm : ℤ) (rm : ℚ) (hnd : (raw.map Prod.fst).Nodup)
    (hse : s ≤ e) (hmem : (dm, rm) ∈ raw) (hmin : ∀ q ∈ raw, dm ≤ q.1) (hs : s < dm) :
    (fill_missing_dates raw s e).length = (e - s).toNat + 1
    ∧ (∀ p ∈ fill_missing_dates raw s e, p.1 < dm → p.2 = none)
    ∧ (fill_missing_dates raw s e).drop (dm - s).toNat = fill_missing_dates raw dm e := by
  refine ⟨by rw [fill_length hnd]; omega, ?_, ?_⟩
  · intro p hp hpd
    obtain ⟨k, hk⟩ := List.mem_iff_get?.mp hp
    have hklen : k < (e - s + 1).toNat := by
      have := (List.get?_eq_some.mp hk).1
      rw [fill_length hnd] at this
      exact this
    rw [fill_get? hnd hklen] at hk
    have hpk : p = (s + (k : ℤ), interpAt (ratesVec raw s e) k) := by
      injection hk with hk
      exact hk.symm
    have hkd : s + (k : ℤ) < dm := by
      rw [hpk] at hpd
      exact hpd
    have hnone : ∀ t : ℕ, (t : ℤ) < dm - s → t < (e - s + 1).toNat →
        (ratesVec raw s e).get? t = some none := by
      intro t ht htlen
      rw [ratesVec_get? htlen,
        lookupRate_eq_none (fun q hq => by have := hmin q hq; omega)]
    have hvk : (ratesVec raw s e).get? k = some none := hnone k (by omega) hklen
    have hprev : prevValid (ratesVec raw s e) k = none := by
      apply prevValid_eq_none
      intro t ht y hcon
      rw [hnone t (by omega) (by omega)] at hcon
      exact Option.noConfusion (Option.some.inj hcon)
    rw [hpk]
    exact interpAt_leading hvk hprev
  · by_cases hdme : dm ≤ e
    · have hsplit : dateRange s e = dateRange s (dm - 1) ++ dateRange dm e :=
        dateRange_split (by omega) (by omega)
      have hlead : mergeLeft (dateRange s (dm - 1)) raw
          = (dateRange s (dm - 1)).map (fun d => (d, (none : Option ℚ))) := by
        apply mergeLeft_all_none
        intro d hd q hq
        have hd' := (mem_dateRange.mp hd).2
        have := hmin q hq
        omega
      have hleadlen : ((dateRange s (dm - 1)).map
          (fun d => (d, (none : Option ℚ)))).length = (dm - s).toNat := by
        rw [List.length_map, dateRange_length]
        omega
      have hmerged : mergeLeft (dateRange s e) raw
          = (dateRange s (dm - 1)).map (fun d => (d, (none : Option ℚ)))
            ++ mergeLeft (dateRange dm e) raw := by
        rw [hsplit, mergeLeft_append, hlead]
      have hsnd : (mergeLeft (dateRange s e) raw).map Prod.snd
          = List.replicate (dm - s).toNat (none : Option ℚ)
            ++ (mergeLeft (dateRange dm e) raw).map Prod.snd := by
        rw [hmerged, List.map_append, List.map_map]
        congr 1
        rw [show (Prod.snd ∘ fun d : ℤ => (d, (none : Option ℚ)))
            = Function.const ℤ (none : Option ℚ) from rfl, List.map_const, dateRange_length]
        congr 1
        omega
      rw [fill_eq_zip raw s e, List.zipWith_distrib_drop, hsnd,
        interpolate_replicate_append, hmerged, List.drop_left' hleadlen, ← fill_eq_zip]
    · have hdre : dateRange dm e = [] :=
        List.length_eq_zero.mp (by rw [dateRange_length]; omega)
      have hrhs : fill_missing_dates raw dm e = [] := by
        rw [fill_eq_zip, hdre]
        rfl
      rw [hrhs, List.drop_eq_nil_of_le (by rw [fill_length hnd]; omega)]

/-- C10 witness: raw observation (2, 5) on the bound [0, 3]: days 0 and 1
stay missing and the suffix from day 2 equals the fill over [2, 3]. -/
theorem fill_missing_dates_leading_gap_witness :
    (fill_missing_dates [((2 : ℤ), (5 : ℚ))] 0 3).length = ((3 : ℤ) - 0).toNat + 1
    ∧ (∀ p ∈ fill_missing_dates [((2 : ℤ), (5 : ℚ))] 0 3, p.1 < 2 → p.2 = none)
    ∧ (fill_missing_dates [((2 : ℤ), (5 : ℚ))] 0 3).drop ((2 : ℤ) - 0).toNat
        = fill_missing_dates [((2 : ℤ), (5 : ℚ))] 2 3 :=
  fill_missing_dates_leading_gap [((2 : ℤ), (5 : ℚ))] 0 3 2 5 (by decide) (by decide)
    (by decide) (by decide) (by decide)

end ExchangeRates
